import Mathlib

/-
Verification of the temporal reconciliation engine of the
counterparties backend (src/backend/analyzer3.py and src/backend/main.py).

The development shallowly embeds the core data model and operations:

* `PolymarketBBOProcessor.get_polymarket_bbo_data` (analyzer3.py):
  the in-memory nearest-before / preferred-after join over a
  timestamp-sorted snapshot list;
* `_get_polymarket_bbo_before_sync` (main.py): the SQL-backed
  before lookup (windowed query, DESC/LIMIT 100, strict `< t` filter);
* `deduplicate_fills` and the `get_tradefeed` cache merge (analyzer3.py);
* `_get_order_time_for_retention`, `cleanup_old_orders` and
  `store_order_in_history` (main.py): the bounded, age-evicted order
  history;
* `update_polymarket_after` (main.py): the delayed rematch tick
  state machine (ticks at 10s / 60s / 120s).

Numeric conventions: epoch-millisecond timestamps are `Int`,
price-like quantities are `Rat` (the Python floats in the source carry
exact decimal literals in every scenario of interest), epoch-second
retention times are `Rat`.  Python dictionaries are embedded as
structures; a field that a dict may lack is an `Option`, and an
enrichment field that may be present-but-null is an `Option (Option _)`
(outer `none` = key absent, `some none` = key present with value None).
-/

namespace Counterparties

/-! ### Generic helpers: Python `max(..., key=f)` / `min(..., key=f)`

Python's `max` (resp. `min`) with a key scans left to right and replaces
the current best only on a strict improvement, hence returns the first
maximal (resp. minimal) element.  `pyMaxBy`/`pyMinBy` embed exactly that
and return `none` on the empty list (the source guards emptiness before
calling them). -/

def pyMaxBy {α : Type} (f : α → Int) : List α → Option α
  | [] => none
  | x :: xs => some (xs.foldl (fun acc y => if f acc < f y then y else acc) x)

def pyMinBy {α : Type} (f : α → Int) : List α → Option α
  | [] => none
  | x :: xs => some (xs.foldl (fun acc y => if f y < f acc then y else acc) x)

theorem foldl_maxStep_mem {α : Type} (f : α → Int) :
    ∀ (xs : List α) (a : α),
      xs.foldl (fun acc y => if f acc < f y then y else acc) a = a ∨
      xs.foldl (fun acc y => if f acc < f y then y else acc) a ∈ xs := by
  intro xs
  induction xs with
  | nil => intro a; exact Or.inl rfl
  | cons x xs ih =>
    intro a
    simp only [List.foldl_cons]
    rcases ih (if f a < f x then x else a) with h | h
    · rw [h]
      by_cases hc : f a < f x
      · simp [hc]
      · simp [hc]
    · exact Or.inr (List.mem_cons_of_mem _ h)

theorem foldl_maxStep_le {α : Type} (f : α → Int) :
    ∀ (xs : List α) (a : α),
      f a ≤ f (xs.foldl (fun acc y => if f acc < f y then y else acc) a) ∧
      ∀ y ∈ xs, f y ≤ f (xs.foldl (fun acc y => if f acc < f y then y else acc) a) := by
  intro xs
  induction xs with
  | nil => intro a; exact ⟨le_refl _, by simp⟩
  | cons x xs ih =>
    intro a
    simp only [List.foldl_cons]
    rcases ih (if f a < f x then x else a) with ⟨h1, h2⟩
    by_cases hc : f a < f x
    · refine ⟨?_, ?_⟩
      · calc f a ≤ f x := le_of_lt hc
          _ ≤ _ := by simpa [hc] using h1
      · intro y hy
        rcases List.mem_cons.mp hy with rfl | hy
        · simpa [hc] using h1
        · exact h2 y hy
    · refine ⟨by simpa [hc] using h1, ?_⟩
      intro y hy
      rcases List.mem_cons.mp hy with rfl | hy
      · calc f y ≤ f a := le_of_not_lt hc
          _ ≤ _ := by simpa [hc] using h1
      · exact h2 y hy

theorem pyMaxBy_spec {α : Type} (f : α → Int) {l : List α} {m : α}
    (h : pyMaxBy f l = some m) : m ∈ l ∧ ∀ y ∈ l, f y ≤ f m := by
  cases l with
  | nil => simp [pyMaxBy] at h
  | cons x xs =>
    simp only [pyMaxBy, Option.some.injEq] at h
    subst h
    constructor
    · rcases foldl_maxStep_mem f xs x with h | h
      · rw [h]; exact List.mem_cons_self x xs
      · exact List.mem_cons_of_mem _ h
    · intro y hy
      rcases List.mem_cons.mp hy with rfl | hy
      · exact (foldl_maxStep_le f xs y).1
      · exact (foldl_maxStep_le f xs x).2 y hy

theorem foldl_minStep_mem {α : Type} (f : α → Int) :
    ∀ (xs : List α) (a : α),
      xs.foldl (fun acc y => if f y < f acc then y else acc) a = a ∨
      xs.foldl (fun acc y => if f y < f acc then y else acc) a ∈ xs := by
  intro xs
  induction xs with
  | nil => intro a; exact Or.inl rfl
  | cons x xs ih =>
    intro a
    simp only [List.foldl_cons]
    rcases ih (if f x < f a then x else a) with h | h
    · rw [h]
      by_cases hc : f x < f a
      · simp [hc]
      · simp [hc]
    · exact Or.inr (List.mem_cons_of_mem _ h)

theorem foldl_minStep_le {α : Type} (f : α → Int) :
    ∀ (xs : List α) (a : α),
      f (xs.foldl (fun acc y => if f y < f acc then y else acc) a) ≤ f a ∧
      ∀ y ∈ xs, f (xs.foldl (fun acc y => if f y < f acc then y else acc) a) ≤ f y := by
  intro xs
  induction xs with
  | nil => intro a; exact ⟨le_refl _, by simp⟩
  | cons x xs ih =>
    intro a
    simp only [List.foldl_cons]
    rcases ih (if f x < f a then x else a) with ⟨h1, h2⟩
    by_cases hc : f x < f a
    · refine ⟨?_, ?_⟩
      · calc f _ ≤ f x := by simpa [hc] using h1
          _ ≤ f a := le_of_lt hc
      · intro y hy
        rcases List.mem_cons.mp hy with rfl | hy
        · simpa [hc] using h1
        · exact h2 y hy
    · refine ⟨by simpa [hc] using h1, ?_⟩
      intro y hy
      rcases List.mem_cons.mp hy with rfl | hy
      · calc f _ ≤ f a := by simpa [hc] using h1
          _ ≤ f y := le_of_not_lt hc
      · exact h2 y hy

theorem pyMinBy_spec {α : Type} (f : α → Int) {l : List α} {m : α}
    (h : pyMinBy f l = some m) : m ∈ l ∧ ∀ y ∈ l, f m ≤ f y := by
  cases l with
  | nil => simp [pyMinBy] at h
  | cons x xs =>
    simp only [pyMinBy, Option.some.injEq] at h
    subst h
    constructor
    · rcases foldl_minStep_mem f xs x with h | h
      · rw [h]; exact List.mem_cons_self x xs
      · exact List.mem_cons_of_mem _ h
    · intro y hy
      rcases List.mem_cons.mp hy with rfl | hy
      · exact (foldl_minStep_le f xs y).1
      · exact (foldl_minStep_le f xs x).2 y hy

theorem pyMaxBy_eq_none {α : Type} (f : α → Int) {l : List α} :
    pyMaxBy f l = none ↔ l = [] := by
  cases l <;> simp [pyMaxBy]

theorem pyMinBy_eq_none {α : Type} (f : α → Int) {l : List α} :
    pyMinBy f l = none ↔ l = [] := by
  cases l <;> simp [pyMinBy]

theorem pyMaxBy_isSome {α : Type} (f : α → Int) {l : List α} (h : l ≠ []) :
    ∃ m, pyMaxBy f l = some m := by
  cases l with
  | nil => exact absurd rfl h
  | cons x xs => exact ⟨_, rfl⟩

theorem pyMinBy_isSome {α : Type} (f : α → Int) {l : List α} (h : l ≠ []) :
    ∃ m, pyMinBy f l = some m := by
  cases l with
  | nil => exact absurd rfl h
  | cons x xs => exact ⟨_, rfl⟩

/-! ### Python string normalization

`str.strip().lower()` is used by both lookup paths to normalize slugs
and outcome labels.  The core `String.toLower` is not kernel-reducible
(its `mapAux` is compiled), so the ASCII fragment of `strip`/`lower`
is embedded directly; the source only ever normalizes ASCII slugs and
labels. -/

def lowerChar (c : Char) : Char :=
  if 65 ≤ c.toNat ∧ c.toNat ≤ 90 then Char.ofNat (c.toNat + 32) else c

def isSpaceChar (c : Char) : Bool :=
  c = ' ' || c = '\t' || c = '\n' || c = '\r'

/-- Python `str.strip()` (ASCII whitespace). -/
def pyStrip (s : String) : String :=
  String.mk (((s.data.dropWhile isSpaceChar).reverse.dropWhile isSpaceChar).reverse)

/-- Python `str.lower()` (ASCII fragment). -/
def pyLower (s : String) : String :=
  String.mk (s.data.map lowerChar)

/-- `s.strip().lower()` as used throughout the source. -/
def pyNorm (s : String) : String := pyLower (pyStrip s)

/-! ### analyzer3.py: in-memory Polymarket BBO join

`Obs` models one record of `PolymarketBBOProcessor.processed_data`
(fields `timestamp` (epoch-ms, here `timestamp_ms`), `game_slug`,
`outcome`, `bbo`, `best_bid`, `best_ask`).  The load query guarantees
`bbo IS NOT NULL AND bbo > 0`, so `bbo` is a plain `Rat`; `best_bid`
and `best_ask` are nullable.  The ISO rendering of the observation
timestamp (`polymarket_timestamp` in the result dicts) is modelled by
the raw epoch-ms value. -/

structure Obs where
  timestamp_ms : Int
  game_slug : String
  outcome : String
  bbo : Rat
  best_bid : Option Rat
  best_ask : Option Rat
  deriving DecidableEq

structure BeforeData where
  bbo : Rat
  best_bid : Option Rat
  best_ask : Option Rat
  polymarket_timestamp : Int
  seconds_from_fill : Rat
  time_relation : String
  deriving DecidableEq

structure AfterData where
  bbo : Rat
  best_bid : Option Rat
  best_ask : Option Rat
  polymarket_timestamp : Int
  seconds_from_fill : Rat
  time_relation : String
  is_preferred : Bool
  deriving DecidableEq

/-- Group match used by `get_polymarket_bbo_data`: the record's
`game_slug`/`outcome` are stripped and lowercased and compared with the
normalized query strings. -/
def obsMatches (slugN outcomeN : String) (r : Obs) : Prop :=
  pyNorm r.game_slug = slugN ∧ pyNorm r.outcome = outcomeN

instance (slugN outcomeN : String) (r : Obs) :
    Decidable (obsMatches slugN outcomeN r) := by
  unfold obsMatches; infer_instance

/-- The record-collection loop of `get_polymarket_bbo_data`.  It walks
`processed_data` in order, skips records with a falsy timestamp,
stops at the first record past `endT` (early termination on the sorted
list), and classifies matching records into `before_records`
(`startT ≤ ts ≤ fillT`), `after_records_all` (`ts > fillT`) and
`after_records_preferred` (`ts ≥ preferT`). -/
def collectRecords (slugN outcomeN : String) (startT fillT endT preferT : Int) :
    List Obs → List Obs × List Obs × List Obs
  | [] => ([], [], [])
  | r :: rest =>
    if r.timestamp_ms = 0 then collectRecords slugN outcomeN startT fillT endT preferT rest
    else if endT < r.timestamp_ms then ([], [], [])
    else
      let tail := collectRecords slugN outcomeN startT fillT endT preferT rest
      if obsMatches slugN outcomeN r then
        if startT ≤ r.timestamp_ms ∧ r.timestamp_ms ≤ fillT then
          (r :: tail.1, tail.2.1, tail.2.2)
        else if fillT < r.timestamp_ms then
          if preferT ≤ r.timestamp_ms then
            (tail.1, r :: tail.2.1, r :: tail.2.2)
          else
            (tail.1, r :: tail.2.1, tail.2.2)
        else tail
      else tail

/-- Construction of the `before_data` dict from the chosen record. -/
def mkBeforeData (r : Obs) (fillT : Int) : BeforeData :=
  { bbo := r.bbo
    best_bid := r.best_bid
    best_ask := r.best_ask
    polymarket_timestamp := r.timestamp_ms
    seconds_from_fill := ((fillT - r.timestamp_ms : Int) : Rat) / 1000
    time_relation := "before" }

/-- Construction of the `after_data` dict from the chosen record.
The source computes `time_diff = closest_after.timestamp - fill_timestamp`
in MILLISECONDS and then sets `is_preferred = time_diff >= 10.0`; the
comparison against the literal `10.0` is embedded as written. -/
def mkAfterData (r : Obs) (fillT : Int) : AfterData :=
  { bbo := r.bbo
    best_bid := r.best_bid
    best_ask := r.best_ask
    polymarket_timestamp := r.timestamp_ms
    seconds_from_fill := ((r.timestamp_ms - fillT : Int) : Rat) / 1000
    time_relation := "after"
    is_preferred := decide ((10 : Int) ≤ r.timestamp_ms - fillT) }

/-- `PolymarketBBOProcessor.get_polymarket_bbo_data` (analyzer3.py).
`data` models `self.processed_data` (timestamp-ascending).  Guards:
falsy `game_slug`/`outcome`/`fill_timestamp` and empty data return the
null pair.  Window constants as in the source: 5-minute window,
10-second preferred-after offset. -/
def get_polymarket_bbo_data (data : List Obs) (game_slug outcome : String)
    (fill_timestamp : Int) : Option BeforeData × Option AfterData :=
  if game_slug = "" ∨ outcome = "" ∨ fill_timestamp = 0 then (none, none)
  else if data = [] then (none, none)
  else
    let slugN := pyNorm game_slug
    let outcomeN := pyNorm outcome
    let timeWindowMs : Int := 5 * 60 * 1000
    let startT := fill_timestamp - timeWindowMs
    let endT := fill_timestamp + timeWindowMs
    let preferT := fill_timestamp + 10 * 1000
    let collected := collectRecords slugN outcomeN startT fill_timestamp endT preferT data
    let before_records := collected.1
    let after_records_all := collected.2.1
    let after_records_preferred := collected.2.2
    let after_records := if after_records_preferred ≠ [] then after_records_preferred else after_records_all
    let before_data := (pyMaxBy (fun r => r.timestamp_ms) before_records).map (fun r => mkBeforeData r fill_timestamp)
    let after_data := (pyMinBy (fun r => r.timestamp_ms) after_records).map (fun r => mkAfterData r fill_timestamp)
    (before_data, after_data)

/-! ### main.py: SQL-backed before lookup

`_get_polymarket_bbo_before_sync` issues
`WHERE game_slug = slug AND LOWER(TRIM(outcome)) = label AND
 ts >= fill - 5min AND ts <= fill AND bbo > 0 ORDER BY ts DESC LIMIT 100`
and then keeps rows with `timestamp_ms < fill_timestamp` STRICTLY,
taking the maximum-timestamp one.  `store` models the `market_data`
table in ascending timestamp order, so `ORDER BY ... DESC` is `reverse`. -/

def mainQueryBeforeRows (market_slug token_label : String) (fill_timestamp : Int)
    (store : List Obs) : List Obs :=
  ((store.filter fun r => decide (r.game_slug = market_slug ∧
      pyNorm r.outcome = pyNorm token_label ∧
      fill_timestamp - 5 * 60 * 1000 ≤ r.timestamp_ms ∧
      r.timestamp_ms ≤ fill_timestamp ∧ 0 < r.bbo)).reverse).take 100

def mainBeforeClosest (market_slug token_label : String) (fill_timestamp : Int)
    (store : List Obs) : Option Obs :=
  let records := mainQueryBeforeRows market_slug token_label fill_timestamp store
  let before_records := records.filter fun r => decide (r.timestamp_ms < fill_timestamp)
  pyMaxBy (fun r => r.timestamp_ms) before_records

/-- Written from the spec sentence for C4, not from the source: "returns
the unique observation maximizing `timestamp_ms` subject to
`timestamp_ms ≤ t` and `t - timestamp_ms ≤ w`; returns null if no such
observation exists" (`List.argmax` returns the first maximizer, which is
unique when timestamps are distinct). -/
def specNearestBefore (t w : Int) (l : List Obs) : Option Obs :=
  (l.filter fun o => decide (o.timestamp_ms ≤ t ∧ t - o.timestamp_ms ≤ w)).argmax
    (fun o => o.timestamp_ms)

/-! ### The collection loop as filters (on sorted data) -/

def condBefore (slugN outN : String) (startT fillT : Int) (r : Obs) : Prop :=
  r.timestamp_ms ≠ 0 ∧ obsMatches slugN outN r ∧
    startT ≤ r.timestamp_ms ∧ r.timestamp_ms ≤ fillT

def condAfterAll (slugN outN : String) (fillT endT : Int) (r : Obs) : Prop :=
  r.timestamp_ms ≠ 0 ∧ obsMatches slugN outN r ∧
    fillT < r.timestamp_ms ∧ r.timestamp_ms ≤ endT

def condAfterPref (slugN outN : String) (fillT preferT endT : Int) (r : Obs) : Prop :=
  r.timestamp_ms ≠ 0 ∧ obsMatches slugN outN r ∧
    fillT < r.timestamp_ms ∧ preferT ≤ r.timestamp_ms ∧ r.timestamp_ms ≤ endT

instance (slugN outN : String) (startT fillT : Int) (r : Obs) :
    Decidable (condBefore slugN outN startT fillT r) := by
  unfold condBefore; infer_instance

instance (slugN outN : String) (fillT endT : Int) (r : Obs) :
    Decidable (condAfterAll slugN outN fillT endT r) := by
  unfold condAfterAll; infer_instance

instance (slugN outN : String) (fillT preferT endT : Int) (r : Obs) :
    Decidable (condAfterPref slugN outN fillT preferT endT r) := by
  unfold condAfterPref; infer_instance

/-- On timestamp-sorted data (the `processed_data` invariant), the
early-terminating collection loop computes exactly the three windowed
filters. -/
theorem collectRecords_eq_filters (slugN outN : String)
    (startT fillT endT preferT : Int) (hfe : fillT ≤ endT) :
    ∀ l : List Obs, l.Sorted (fun a b => a.timestamp_ms ≤ b.timestamp_ms) →
      collectRecords slugN outN startT fillT endT preferT l =
        (l.filter (fun r => decide (condBefore slugN outN startT fillT r)),
         l.filter (fun r => decide (condAfterAll slugN outN fillT endT r)),
         l.filter (fun r => decide (condAfterPref slugN outN fillT preferT endT r))) := by
  intro l
  induction l with
  | nil => intro _; rfl
  | cons r rest ih =>
    intro hsort
    rw [List.sorted_cons] at hsort
    obtain ⟨hhead, htail⟩ := hsort
    by_cases h0 : r.timestamp_ms = 0
    · have hB : ¬ condBefore slugN outN startT fillT r := fun h => h.1 h0
      have hA : ¬ condAfterAll slugN outN fillT endT r := fun h => h.1 h0
      have hP : ¬ condAfterPref slugN outN fillT preferT endT r := fun h => h.1 h0
      simp only [collectRecords, if_pos h0, List.filter_cons,
        decide_eq_true_eq, hB, hA, hP, if_false, ite_false]
      rw [ih htail]
    · by_cases hend : endT < r.timestamp_ms
      · have hstop : ∀ x ∈ r :: rest, endT < x.timestamp_ms := by
          intro x hx
          rcases List.mem_cons.mp hx with rfl | hx
          · exact hend
          · exact lt_of_lt_of_le hend (hhead x hx)
        have hB : ∀ x ∈ r :: rest, ¬ condBefore slugN outN startT fillT x := by
          intro x hx h
          exact absurd (le_trans h.2.2.2 hfe) (not_le.mpr (hstop x hx))
        have hA : ∀ x ∈ r :: rest, ¬ condAfterAll slugN outN fillT endT x := by
          intro x hx h
          exact absurd h.2.2.2 (not_le.mpr (hstop x hx))
        have hP : ∀ x ∈ r :: rest, ¬ condAfterPref slugN outN fillT preferT endT x := by
          intro x hx h
          exact absurd h.2.2.2.2 (not_le.mpr (hstop x hx))
        simp only [collectRecords, if_neg h0, if_pos hend]
        rw [List.filter_eq_nil_iff.mpr (by intro x hx; simpa using hB x hx),
          List.filter_eq_nil_iff.mpr (by intro x hx; simpa using hA x hx),
          List.filter_eq_nil_iff.mpr (by intro x hx; simpa using hP x hx)]
      · have hle : r.timestamp_ms ≤ endT := le_of_not_lt hend
        by_cases hm : obsMatches slugN outN r
        · by_cases hbr : startT ≤ r.timestamp_ms ∧ r.timestamp_ms ≤ fillT
          · have hB : condBefore slugN outN startT fillT r := ⟨h0, hm, hbr.1, hbr.2⟩
            have hA : ¬ condAfterAll slugN outN fillT endT r :=
              fun h => absurd hbr.2 (not_le.mpr h.2.2.1)
            have hP : ¬ condAfterPref slugN outN fillT preferT endT r :=
              fun h => absurd hbr.2 (not_le.mpr h.2.2.1)
            simp only [collectRecords, if_neg h0, if_neg hend, if_pos hm, if_pos hbr]
            rw [ih htail]
            simp [hB, hA, hP, List.filter_cons]
          · by_cases haf : fillT < r.timestamp_ms
            · have hA : condAfterAll slugN outN fillT endT r := ⟨h0, hm, haf, hle⟩
              have hB : ¬ condBefore slugN outN startT fillT r :=
                fun h => absurd h.2.2.2 (not_le.mpr haf)
              by_cases hpr : preferT ≤ r.timestamp_ms
              · have hP : condAfterPref slugN outN fillT preferT endT r :=
                  ⟨h0, hm, haf, hpr, hle⟩
                simp only [collectRecords, if_neg h0, if_neg hend, if_pos hm,
                  if_neg hbr, if_pos haf, if_pos hpr]
                rw [ih htail]
                simp [hB, hA, hP, List.filter_cons]
              · have hP : ¬ condAfterPref slugN outN fillT preferT endT r :=
                  fun h => absurd h.2.2.2.1 hpr
                simp only [collectRecords, if_neg h0, if_neg hend, if_pos hm,
                  if_neg hbr, if_pos haf, if_neg hpr]
                rw [ih htail]
                simp [hB, hA, hP, List.filter_cons]
            · have hB : ¬ condBefore slugN outN startT fillT r :=
                fun h => hbr ⟨h.2.2.1, h.2.2.2⟩
              have hA : ¬ condAfterAll slugN outN fillT endT r :=
                fun h => haf h.2.2.1
              have hP : ¬ condAfterPref slugN outN fillT preferT endT r :=
                fun h => haf h.2.2.1
              simp only [collectRecords, if_neg h0, if_neg hend, if_pos hm,
                if_neg hbr, if_neg haf]
              rw [ih htail]
              simp [hB, hA, hP, List.filter_cons]
        · have hB : ¬ condBefore slugN outN startT fillT r := fun h => hm h.2.1
          have hA : ¬ condAfterAll slugN outN fillT endT r := fun h => hm h.2.1
          have hP : ¬ condAfterPref slugN outN fillT preferT endT r := fun h => hm h.2.1
          simp only [collectRecords, if_neg h0, if_neg hend, if_neg hm]
          rw [ih htail]
          simp [hB, hA, hP, List.filter_cons]

/-! ### analyzer3.py: `deduplicate_fills` and the trade-feed cache merge

`Fill` models one fill dict of the trade feed.  The fields mirror the
keys that `deduplicate_fills` and the `get_tradefeed` merge inspect:

* `timestamp_ms` — the explicit `timestamp_ms` key;
* `fill_tx_ts` — the `fill_tx_ts` ISO string (from the fill itself or
  its `full_trade_data`), modelled by its parsed epoch-ms value with
  `none` for absent-or-unparseable (an ISO-8601 timestamp string and
  its epoch value sort identically, and Python sorts absent keys with
  default `""` below every ISO string, matching `none < some _`);
* `ftd_id`/`ftd_internal_id`/`top_id`/`top_internal_id` — the id
  chain `full_trade_data.id or full_trade_data.internal_id` then
  `fill.id or fill.internal_id` (falsy ids are modelled as `none`);
* `fill_value_field` — the `Fill Value` key; `last_fill_value_amount`
  — `full_trade_data.last_fill_value.amount`; both default to 0
  (fill values are opaque for dedup equality and are modelled as `Int`);
* `payload` distinguishes otherwise-identical fills (remaining keys). -/

structure Fill where
  timestamp_ms : Option Int
  fill_tx_ts : Option Int
  ftd_id : Option String
  ftd_internal_id : Option String
  top_id : Option String
  top_internal_id : Option String
  fill_value_field : Option Int
  last_fill_value_amount : Option Int
  payload : Nat
  deriving DecidableEq

/-- `timestamp_ms` extraction: the explicit key, falling back to the
parsed `fill_tx_ts`. -/
def fillTimestampMs (f : Fill) : Option Int :=
  f.timestamp_ms.orElse (fun _ => f.fill_tx_ts)

/-- The id chain: `full_trade_data.id or full_trade_data.internal_id`;
if falsy, `fill.id or fill.internal_id`. -/
def fillInternalId (f : Fill) : Option String :=
  (f.ftd_id.orElse (fun _ => f.ftd_internal_id)).orElse
    (fun _ => f.top_id.orElse (fun _ => f.top_internal_id))

/-- `Fill Value` extraction with the `last_fill_value.amount` fallback
and final default 0. -/
def fillValue (f : Fill) : Int :=
  (f.fill_value_field.orElse (fun _ => f.last_fill_value_amount)).getD 0

/-- The composite dedup key `(timestamp_ms, internal_id, fill_value)`;
`none` when no proper key can be formed (missing timestamp or id). -/
def compositeKey (f : Fill) : Option (Int × String × Int) :=
  match fillTimestampMs f, fillInternalId f with
  | some ts, some iid => some (ts, iid, fillValue f)
  | _, _ => none

/-- The dedup loop of `deduplicate_fills` with its `seen` set of
composite keys: keyed fills are kept on first occurrence of their key
and dropped afterwards; keyless fills are always kept ("better to show
than hide"). -/
def dedupAux (seen : List (Int × String × Int)) : List Fill → List Fill
  | [] => []
  | f :: rest =>
    match compositeKey f with
    | some k => if k ∈ seen then dedupAux seen rest else f :: dedupAux (k :: seen) rest
    | none => f :: dedupAux seen rest

def deduplicate_fills (fills_data : List Fill) : List Fill :=
  dedupAux [] fills_data

/-- Order on sort keys of the final
`fill_data.sort(key=lambda x: x.get('fill_tx_ts', ''), reverse=True)`:
the parsed timestamp, with `none` (the `''` default) below every
present timestamp. -/
def optTsLE : Option Int → Option Int → Prop
  | none, _ => True
  | some _, none => False
  | some x, some y => x ≤ y

instance : DecidableRel optTsLE := fun a b =>
  match a, b with
  | none, _ => isTrue trivial
  | some _, none => isFalse (fun h => h)
  | some x, some y => inferInstanceAs (Decidable (x ≤ y))

theorem optTsLE_total : ∀ a b : Option Int, optTsLE a b ∨ optTsLE b a
  | none, _ => Or.inl trivial
  | some _, none => Or.inr trivial
  | some x, some y => (le_total x y).imp id id

theorem optTsLE_trans :
    ∀ {a b c : Option Int}, optTsLE a b → optTsLE b c → optTsLE a c
  | none, _, _, _, _ => trivial
  | some _, none, _, h, _ => h.elim
  | some _, some _, none, _, h => h.elim
  | some _, some _, some _, h1, h2 => le_trans h1 h2

/-- Newest-first order used by the trade-feed sort (stable, as Python's
`sort` is; `List.insertionSort` is stable as well). -/
def fillDescLE (a b : Fill) : Prop := optTsLE b.fill_tx_ts a.fill_tx_ts

instance : DecidableRel fillDescLE := fun a b =>
  inferInstanceAs (Decidable (optTsLE b.fill_tx_ts a.fill_tx_ts))

instance : IsTotal Fill fillDescLE :=
  ⟨fun a b => (optTsLE_total b.fill_tx_ts a.fill_tx_ts).imp id id⟩

instance : IsTrans Fill fillDescLE :=
  ⟨fun _ _ _ h1 h2 => optTsLE_trans h2 h1⟩

/-- The incremental reconciliation step of `get_tradefeed`: concatenate
the cached result set with the freshly fetched one, deduplicate by
composite key, and sort newest-first by `fill_tx_ts`.  (The optional
`hours_back` window filter between the concatenation and the dedup is
not part of the merge and is omitted.) -/
def get_tradefeed_merge (cached_data fill_data : List Fill) : List Fill :=
  List.insertionSort fillDescLE (deduplicate_fills (cached_data ++ fill_data))

/-! ### main.py: retention cache (`order_history`)

`Order` models one order dict.  `received_at` is the parsed ingestion
timestamp in epoch seconds (`none` = key absent or unparseable);
`timestamp` is the raw event `timestamp` key (seconds or milliseconds;
0 when absent or unparseable, as in the source's `except` fallback).
The enrichment fields (`polymarket_before`, `polymarket_after`,
`sportbook`) are `Option (Option Nat)`: outer `none` = key absent from
the dict, `some none` = key present and set to None, `some (some _)` =
key present with a payload (payloads are opaque to the cache and
abstracted as `Nat`). -/

structure Order where
  tx_hash : String
  log_index : Nat
  received_at : Option Rat
  timestamp : Rat
  polymarket_before : Option (Option Nat)
  polymarket_after : Option (Option Nat)
  sportbook : Option (Option Nat)
  deriving DecidableEq

def MAX_ORDER_AGE_HOURS : Rat := 48

def MAX_ORDER_HISTORY : Nat := 4000

/-- `f"{order.get('tx_hash')}_{order.get('log_index')}"`. -/
def orderId (o : Order) : String :=
  o.tx_hash ++ "_" ++ toString o.log_index

/-- `_get_order_time_for_retention`: epoch seconds for retention,
preferring `received_at`, falling back to the raw `timestamp`
normalized from milliseconds to seconds when it exceeds `1e12`. -/
def _get_order_time_for_retention (order : Order) : Rat :=
  match order.received_at with
  | some parsed => parsed
  | none =>
    let ts := order.timestamp
    if (10 : Rat) ^ (12 : Nat) < ts then ts / 1000 else ts

/-- `cleanup_old_orders`: drop orders whose retention time is not
strictly newer than `now - 48h`.  (The source's early return on an
empty history is the same as filtering the empty list.) -/
def cleanup_old_orders (now : Rat) (order_history : List Order) : List Order :=
  order_history.filter
    (fun o => decide (now - MAX_ORDER_AGE_HOURS * 60 * 60 < _get_order_time_for_retention o))

/-- Python `dict.update(order_data)` on an existing history entry:
every key present in `order_data` overwrites (including keys explicitly
set to None); keys absent from `order_data` are preserved. `tx_hash`,
`log_index`, `timestamp` are always present on an incoming order. -/
def updateOrder (existing order_data : Order) : Order :=
  { tx_hash := order_data.tx_hash
    log_index := order_data.log_index
    received_at := order_data.received_at.orElse (fun _ => existing.received_at)
    timestamp := order_data.timestamp
    polymarket_before := order_data.polymarket_before.orElse (fun _ => existing.polymarket_before)
    polymarket_after := order_data.polymarket_after.orElse (fun _ => existing.polymarket_after)
    sportbook := order_data.sportbook.orElse (fun _ => existing.sportbook) }

/-- The find-and-update / append step of `store_order_in_history`: the
first entry with the same order id is updated in place; otherwise the
order is appended at the end. -/
def upsertOrder (order_data : Order) : List Order → List Order
  | [] => [order_data]
  | e :: rest =>
    if orderId e = orderId order_data then updateOrder e order_data :: rest
    else e :: upsertOrder order_data rest

/-- Newest-first order of the history sort
(`order_history.sort(key=_get_order_time_for_retention, reverse=True)`). -/
def orderDescLE (a b : Order) : Prop :=
  _get_order_time_for_retention b ≤ _get_order_time_for_retention a

instance : DecidableRel orderDescLE := fun _ _ =>
  inferInstanceAs (Decidable (_ ≤ _))

instance : IsTotal Order orderDescLE := ⟨fun _ _ => le_total _ _⟩

instance : IsTrans Order orderDescLE := ⟨fun _ _ _ h1 h2 => le_trans h2 h1⟩

/-- The final size cap of `store_order_in_history`
(`if len(order_history) > MAX_ORDER_HISTORY: order_history = order_history[:MAX_ORDER_HISTORY]`). -/
def capHistory (history : List Order) : List Order :=
  if MAX_ORDER_HISTORY < history.length then history.take MAX_ORDER_HISTORY else history

/-- `store_order_in_history`: prune stale orders, update-or-append by
order id, sort newest-first, and truncate to the 4000 newest. -/
def store_order_in_history (now : Rat) (order_data : Order)
    (order_history : List Order) : List Order :=
  capHistory
    (List.insertionSort orderDescLE (upsertOrder order_data (cleanup_old_orders now order_history)))

/-! ### main.py: delayed rematch ticks (`update_polymarket_after`)

One streaming order's view of the scheduler.  `process_order_batch`
registers the order in `pending_updates` and schedules
`update_polymarket_after` at delays 10, 60 and 120 seconds; the ticks
therefore fire in that order.  `SchedState` tracks whether the order is
still in `pending_updates`, whether its `order_data` currently carries
any non-null after result (`polymarket_after` or `pinnacle_after` —
the dict is shared across ticks, so the flag is cumulative), and the
list of delays at which an after-side join (the `get_..._after`
lookups) was actually executed.  `lookup delay` abstracts the joint
outcome `polymarket_after or pinnacle_after` of the tick at `delay`;
the lookups only return observations at least 10 seconds after the
fill, so a `true` outcome is a settle-delay-satisfied (preferred)
after result. -/

structure SchedState where
  pending : Bool
  hasAfter : Bool
  joins : List Nat
  deriving DecidableEq

/-- One `update_polymarket_after(order_id, delay)` execution after its
sleep: return early if the order is no longer pending; otherwise run
the after joins, record any found after data on the shared dict, and
remove the order from `pending_updates` iff
`delay >= 120 or (delay >= 60 and has_any_after)`. -/
def update_polymarket_after (lookup : Nat → Bool) (delay : Nat)
    (s : SchedState) : SchedState :=
  if s.pending = false then s
  else
    let found := lookup delay
    let hasAfter := found || s.hasAfter
    let shouldFinalize := decide (120 ≤ delay) || (decide (60 ≤ delay) && hasAfter)
    { pending := !shouldFinalize
      hasAfter := hasAfter
      joins := s.joins ++ [delay] }

/-- The three ticks scheduled by `process_order_batch`, in firing
order. -/
def runScheduledTicks (lookup : Nat → Bool) (s : SchedState) : SchedState :=
  update_polymarket_after lookup 120
    (update_polymarket_after lookup 60 (update_polymarket_after lookup 10 s))

/-- State of a streaming order right after `process_order_batch`
registered it: pending, no after data yet, no after joins executed. -/
def initialSchedState : SchedState :=
  { pending := true, hasAfter := false, joins := [] }

/-! ### Dedup lemmas -/

theorem dedupAux_filter_of_mem (k : Int × String × Int) :
    ∀ (seen : List (Int × String × Int)) (l : List Fill), k ∈ seen →
      (dedupAux seen l).filter (fun f => decide (compositeKey f = some k)) = [] := by
  intro seen l
  induction l generalizing seen with
  | nil => intro _; rfl
  | cons f rest ih =>
    intro hk
    cases hck : compositeKey f with
    | none =>
      have hf : ¬ compositeKey f = some k := by rw [hck]; exact fun h => Option.noConfusion h
      simp only [dedupAux, hck]
      rw [List.filter_cons_of_neg (by simpa using hf)]
      exact ih seen hk
    | some k2 =>
      by_cases hmem : k2 ∈ seen
      · simp only [dedupAux, hck, if_pos hmem]
        exact ih seen hk
      · have hne : k2 ≠ k := fun h => hmem (h ▸ hk)
        have hf : ¬ compositeKey f = some k := by
          rw [hck]; exact fun h => hne (Option.some.inj h)
        simp only [dedupAux, hck, if_neg hmem]
        rw [List.filter_cons_of_neg (by simpa using hf)]
        exact ih (k2 :: seen) (List.mem_cons_of_mem _ hk)

theorem dedupAux_filter_eq_find (k : Int × String × Int) :
    ∀ (seen : List (Int × String × Int)) (l : List Fill), k ∉ seen →
      (dedupAux seen l).filter (fun f => decide (compositeKey f = some k)) =
        (l.find? (fun f => decide (compositeKey f = some k))).toList := by
  intro seen l
  induction l generalizing seen with
  | nil => intro _; rfl
  | cons f rest ih =>
    intro hk
    cases hck : compositeKey f with
    | none =>
      have hf : ¬ compositeKey f = some k := by rw [hck]; exact fun h => Option.noConfusion h
      simp only [dedupAux, hck]
      rw [List.filter_cons_of_neg (by simpa using hf),
        List.find?_cons_of_neg _ (by simpa using hf)]
      exact ih seen hk
    | some k2 =>
      by_cases hmem : k2 ∈ seen
      · have hne : k2 ≠ k := fun h => hk (h ▸ hmem)
        have hf : ¬ compositeKey f = some k := by
          rw [hck]; exact fun h => hne (Option.some.inj h)
        simp only [dedupAux, hck, if_pos hmem]
        rw [List.find?_cons_of_neg _ (by simpa using hf)]
        exact ih seen hk
      · simp only [dedupAux, hck, if_neg hmem]
        by_cases heq : k2 = k
        · subst heq
          have hf : compositeKey f = some k2 := hck
          rw [List.filter_cons_of_pos (by simpa using hf),
            List.find?_cons_of_pos _ (by simpa using hf)]
          rw [dedupAux_filter_of_mem k2 (k2 :: seen) rest (List.mem_cons_self _ _)]
          rfl
        · have hf : ¬ compositeKey f = some k := by
            rw [hck]; exact fun h => heq (Option.some.inj h)
          rw [List.filter_cons_of_neg (by simpa using hf),
            List.find?_cons_of_neg _ (by simpa using hf)]
          exact ih (k2 :: seen) (by
            intro h
            rcases List.mem_cons.mp h with h | h
            · exact heq h.symm
            · exact hk h)

theorem dedupAux_count_keyless (f : Fill) (hf : compositeKey f = none) :
    ∀ (seen : List (Int × String × Int)) (l : List Fill),
      (dedupAux seen l).count f = l.count f := by
  intro seen l
  induction l generalizing seen with
  | nil => rfl
  | cons g rest ih =>
    cases hcg : compositeKey g with
    | none =>
      simp only [dedupAux, hcg, List.count_cons, ih seen]
    | some k2 =>
      have hne : g ≠ f := fun h => by rw [h, hf] at hcg; exact Option.noConfusion hcg
      by_cases hmem : k2 ∈ seen
      · simp only [dedupAux, hcg, if_pos hmem, ih seen, List.count_cons]
        simp [hne]
      · simp only [dedupAux, hcg, if_neg hmem, List.count_cons, ih (k2 :: seen)]

/-- The `seen` set after the dedup loop has processed `l`. -/
def seenKeys (seen : List (Int × String × Int)) : List Fill → List (Int × String × Int)
  | [] => seen
  | f :: rest =>
    match compositeKey f with
    | some k => if k ∈ seen then seenKeys seen rest else seenKeys (k :: seen) rest
    | none => seenKeys seen rest

theorem dedupAux_append (l1 l2 : List Fill) :
    ∀ seen, dedupAux seen (l1 ++ l2) =
      dedupAux seen l1 ++ dedupAux (seenKeys seen l1) l2 := by
  induction l1 with
  | nil => intro seen; rfl
  | cons f rest ih =>
    intro seen
    show dedupAux seen (f :: (rest ++ l2)) = _
    cases hck : compositeKey f with
    | none =>
      simp only [dedupAux, seenKeys, hck]
      rw [ih seen, List.cons_append]
    | some k2 =>
      by_cases hmem : k2 ∈ seen
      · simp only [dedupAux, seenKeys, hck, if_pos hmem]
        rw [ih seen]
      · simp only [dedupAux, seenKeys, hck, if_neg hmem]
        rw [ih (k2 :: seen), List.cons_append]

theorem mem_seenKeys (k : Int × String × Int) :
    ∀ (seen : List (Int × String × Int)) (l : List Fill),
      k ∈ seenKeys seen l ↔ k ∈ seen ∨ ∃ g ∈ l, compositeKey g = some k := by
  intro seen l
  induction l generalizing seen with
  | nil => simp [seenKeys]
  | cons g rest ih =>
    cases hcg : compositeKey g with
    | none =>
      simp only [seenKeys, hcg, ih, List.mem_cons]
      constructor
      · rintro (h | ⟨x, hx, hk⟩)
        · exact Or.inl h
        · exact Or.inr ⟨x, Or.inr hx, hk⟩
      · rintro (h | ⟨x, hx, hk⟩)
        · exact Or.inl h
        · rcases hx with rfl | hx
          · rw [hcg] at hk; exact Option.noConfusion hk
          · exact Or.inr ⟨x, hx, hk⟩
    | some k2 =>
      by_cases hmem : k2 ∈ seen
      · simp only [seenKeys, hcg, if_pos hmem, ih, List.mem_cons]
        constructor
        · rintro (h | ⟨x, hx, hk⟩)
          · exact Or.inl h
          · exact Or.inr ⟨x, Or.inr hx, hk⟩
        · rintro (h | ⟨x, hx, hk⟩)
          · exact Or.inl h
          · rcases hx with rfl | hx
            · rw [hcg] at hk
              exact Or.inl ((Option.some.inj hk) ▸ hmem)
            · exact Or.inr ⟨x, hx, hk⟩
      · simp only [seenKeys, hcg, if_neg hmem, ih, List.mem_cons]
        constructor
        · rintro (h | ⟨x, hx, hk⟩)
          · rcases h with rfl | h
            · exact Or.inr ⟨g, Or.inl rfl, hcg⟩
            · exact Or.inl h
          · exact Or.inr ⟨x, Or.inr hx, hk⟩
        · rintro (h | ⟨x, hx, hk⟩)
          · exact Or.inl (Or.inr h)
          · rcases hx with rfl | hx
            · rw [hcg] at hk
              exact Or.inl (Or.inl (Option.some.inj hk).symm)
            · exact Or.inr ⟨x, hx, hk⟩

theorem dedupAux_eq_nil_of_seen :
    ∀ (seen : List (Int × String × Int)) (l : List Fill),
      (∀ f ∈ l, ∃ k, compositeKey f = some k ∧ k ∈ seen) → dedupAux seen l = [] := by
  intro seen l
  induction l generalizing seen with
  | nil => intro _; rfl
  | cons f rest ih =>
    intro h
    obtain ⟨k, hk, hmem⟩ := h f (List.mem_cons_self _ _)
    simp only [dedupAux, hk, if_pos hmem]
    exact ih seen (fun g hg => h g (List.mem_cons_of_mem _ hg))

/-- Two fills that cannot share a composite key. -/
def keyDistinct (a b : Fill) : Prop :=
  ∀ k, compositeKey a = some k → compositeKey b ≠ some k

theorem keyDistinct_symm : Symmetric keyDistinct := by
  intro a b h k hb ha
  exact h k ha hb

theorem dedupAux_keys_not_seen :
    ∀ (seen : List (Int × String × Int)) (l : List Fill) (g : Fill),
      g ∈ dedupAux seen l → ∀ k, compositeKey g = some k → k ∉ seen := by
  intro seen l
  induction l generalizing seen with
  | nil => intro g hg; exact absurd hg (List.not_mem_nil g)
  | cons f rest ih =>
    intro g hg k hk
    cases hcf : compositeKey f with
    | none =>
      simp only [dedupAux, hcf] at hg
      rcases List.mem_cons.mp hg with rfl | hg
      · rw [hcf] at hk; exact absurd hk (fun h => Option.noConfusion h)
      · exact ih seen g hg k hk
    | some k2 =>
      by_cases hmem : k2 ∈ seen
      · simp only [dedupAux, hcf, if_pos hmem] at hg
        exact ih seen g hg k hk
      · simp only [dedupAux, hcf, if_neg hmem] at hg
        rcases List.mem_cons.mp hg with rfl | hg
        · rw [hcf] at hk
          intro hks
          exact hmem ((Option.some.inj hk) ▸ hks)
        · intro hks
          exact ih (k2 :: seen) g hg k hk (List.mem_cons_of_mem _ hks)

theorem dedupAux_pairwise_keyDistinct :
    ∀ (seen : List (Int × String × Int)) (l : List Fill),
      (dedupAux seen l).Pairwise keyDistinct := by
  intro seen l
  induction l generalizing seen with
  | nil => exact List.Pairwise.nil
  | cons f rest ih =>
    cases hcf : compositeKey f with
    | none =>
      simp only [dedupAux, hcf]
      refine List.Pairwise.cons ?_ (ih seen)
      intro g _ k hk
      rw [hcf] at hk; exact absurd hk (fun h => Option.noConfusion h)
    | some k2 =>
      by_cases hmem : k2 ∈ seen
      · simp only [dedupAux, hcf, if_pos hmem]; exact ih seen
      · simp only [dedupAux, hcf, if_neg hmem]
        refine List.Pairwise.cons ?_ (ih (k2 :: seen))
        intro g hg k hk
        rw [hcf] at hk
        have hk2 : k = k2 := (Option.some.inj hk).symm
        subst hk2
        intro hgk
        exact dedupAux_keys_not_seen (k :: seen) rest g hg k hgk (List.mem_cons_self _ _)

theorem dedupAux_eq_self :
    ∀ (seen : List (Int × String × Int)) (l : List Fill),
      (∀ f ∈ l, ∀ k, compositeKey f = some k → k ∉ seen) →
      l.Pairwise keyDistinct → dedupAux seen l = l := by
  intro seen l
  induction l generalizing seen with
  | nil => intro _ _; rfl
  | cons f rest ih =>
    intro h1 h2
    rw [List.pairwise_cons] at h2
    obtain ⟨hfd, h2t⟩ := h2
    cases hcf : compositeKey f with
    | none =>
      simp only [dedupAux, hcf]
      rw [ih seen (fun g hg => h1 g (List.mem_cons_of_mem _ hg)) h2t]
    | some k2 =>
      have hns : k2 ∉ seen := h1 f (List.mem_cons_self _ _) k2 hcf
      simp only [dedupAux, hcf, if_neg hns]
      rw [ih (k2 :: seen) ?_ h2t]
      intro g hg k hk hks
      rcases List.mem_cons.mp hks with rfl | hks
      · exact hfd g hg k hcf hk
      · exact h1 g (List.mem_cons_of_mem _ hg) k hk hks

/-! ### Sort and store lemmas -/

theorem insertionSort_append_singleton {α : Type} (r : α → α → Prop) [DecidableRel r] (x : α) :
    ∀ l : List α, l.Sorted r → (∀ y ∈ l, ¬ r y x) →
      List.insertionSort r (l ++ [x]) = x :: l := by
  intro l
  induction l with
  | nil => intro _ _; rfl
  | cons a l ih =>
    intro hs hgt
    rw [List.sorted_cons] at hs
    obtain ⟨ha, hl⟩ := hs
    show List.insertionSort r (a :: (l ++ [x])) = _
    rw [List.insertionSort, ih hl (fun y hy => hgt y (List.mem_cons_of_mem _ hy)),
      List.orderedInsert, if_neg (hgt a (List.mem_cons_self _ _))]
    congr 1
    cases l with
    | nil => rfl
    | cons b t => rw [List.orderedInsert, if_pos (ha b (List.mem_cons_self _ _))]

theorem cleanup_eq_self (now : Rat) (h : List Order)
    (hall : ∀ o ∈ h,
      now - MAX_ORDER_AGE_HOURS * 60 * 60 < _get_order_time_for_retention o) :
    cleanup_old_orders now h = h := by
  unfold cleanup_old_orders
  rw [List.filter_eq_self]
  intro o ho
  exact decide_eq_true (hall o ho)

theorem upsertOrder_append (o : Order) :
    ∀ h : List Order, (∀ e ∈ h, orderId e ≠ orderId o) →
      upsertOrder o h = h ++ [o] := by
  intro h
  induction h with
  | nil => intro _; rfl
  | cons e rest ih =>
    intro hne
    rw [upsertOrder, if_neg (hne e (List.mem_cons_self _ _)),
      ih (fun g hg => hne g (List.mem_cons_of_mem _ hg)), List.cons_append]

/-- `store_order_in_history` on a history of strictly older, distinct,
retention-fresh orders: prepend the new order and keep the 4000 newest. -/
theorem store_on_fresh (now : Rat) (x : Order) (H : List Order)
    (hr : ∀ o ∈ H,
      now - MAX_ORDER_AGE_HOURS * 60 * 60 < _get_order_time_for_retention o)
    (hid : ∀ o ∈ H, orderId o ≠ orderId x)
    (hlt : ∀ o ∈ H,
      _get_order_time_for_retention o < _get_order_time_for_retention x)
    (hs : H.Sorted orderDescLE) :
    store_order_in_history now x H = (x :: H).take MAX_ORDER_HISTORY := by
  unfold store_order_in_history
  rw [cleanup_eq_self now H hr, upsertOrder_append x H hid,
    insertionSort_append_singleton orderDescLE x H hs
      (fun y hy h => absurd h (not_le.mpr (hlt y hy)))]
  unfold capHistory
  by_cases hlen : MAX_ORDER_HISTORY < (x :: H).length
  · rw [if_pos hlen]
  · rw [if_neg hlen, List.take_of_length_le (le_of_not_lt hlen)]

theorem capHistory_length_le (h : List Order) :
    (capHistory h).length ≤ MAX_ORDER_HISTORY := by
  unfold capHistory
  by_cases hlen : MAX_ORDER_HISTORY < h.length
  · rw [if_pos hlen, List.length_take]
    exact min_le_left _ _
  · rw [if_neg hlen]
    exact le_of_not_lt hlen

/-- Folding `store_order_in_history` over a stream of pairwise-distinct,
strictly time-increasing, retention-fresh orders leaves exactly the
newest `MAX_ORDER_HISTORY` of them, newest first. -/
theorem store_fold (now : Rat) :
    ∀ es : List Order,
      es.Pairwise (fun a b => orderId a ≠ orderId b) →
      es.Pairwise (fun a b =>
        _get_order_time_for_retention a < _get_order_time_for_retention b) →
      (∀ o ∈ es,
        now - MAX_ORDER_AGE_HOURS * 60 * 60 < _get_order_time_for_retention o) →
      es.foldl (fun h o => store_order_in_history now o h) [] =
        es.reverse.take MAX_ORDER_HISTORY := by
  intro es
  induction es using List.reverseRecOn with
  | nil => intro _ _ _; rfl
  | append_singleton l x ih =>
    intro hdist hmono hret
    rw [List.pairwise_append] at hdist hmono
    have hmemH : ∀ o ∈ l.reverse.take MAX_ORDER_HISTORY, o ∈ l := fun o ho =>
      List.mem_reverse.mp (List.mem_of_mem_take ho)
    rw [List.foldl_append]
    simp only [List.foldl_cons, List.foldl_nil]
    rw [ih hdist.1 hmono.1
      (fun o ho => hret o (List.mem_append_left _ ho))]
    have hrev : l.reverse.Pairwise (fun a b =>
        _get_order_time_for_retention b < _get_order_time_for_retention a) :=
      List.pairwise_reverse.mpr hmono.1
    have htake := hrev.sublist (List.take_sublist MAX_ORDER_HISTORY l.reverse)
    rw [store_on_fresh now x _
      (fun o ho => hret o (List.mem_append_left _ (hmemH o ho)))
      (fun o ho => hdist.2.2 o (hmemH o ho) x (List.mem_singleton_self _))
      (fun o ho => hmono.2.2 o (hmemH o ho) x (List.mem_singleton_self _))
      (htake.imp (fun h => le_of_lt h))]
    rw [List.reverse_append, List.reverse_singleton, List.singleton_append]
    rw [show MAX_ORDER_HISTORY = 3999 + 1 from rfl, List.take_succ_cons,
      List.take_succ_cons, List.take_take]
    norm_num

/-! ## Claim theorems -/

/-- C1 counterexample: with a preferred after-result available at every
tick (in particular at the 10s tick), the order is NOT settled at the
10s tick — it is still pending afterwards — and the 60s tick executes a
further after-side join (`joins = [10, 60]`), contradicting the claim
that the scheduler transitions directly to Settled at the 10s tick and
that the 60s tick never executes a join. -/
theorem scheduler_10s_tick_does_not_settle :
    (update_polymarket_after (fun _ => true) 10 initialSchedState).pending = true ∧
    (runScheduledTicks (fun _ => true) initialSchedState).joins = [10, 60] := by
  constructor <;> rfl

/-- C1 (amended): when a preferred (settle-delay-satisfied) after-result
is obtained at the 10-second tick, the event is not finalized there: it
stays pending, the 60-second tick executes one more after-side join and
then transitions the event to Settled, and the 120-second tick never
executes a join (the run's joins are exactly `[10, 60]`). -/
theorem scheduler_preferred_at_10s_settles_at_60s (lookup : Nat → Bool)
    (h10 : lookup 10 = true) :
    (update_polymarket_after lookup 10 initialSchedState).pending = true ∧
    (runScheduledTicks lookup initialSchedState).joins = [10, 60] ∧
    (runScheduledTicks lookup initialSchedState).pending = false := by
  simp [runScheduledTicks, update_polymarket_after, initialSchedState, h10]

/-- Witness for C1's amended theorem at the constant-true lookup. -/
theorem scheduler_preferred_at_10s_settles_at_60s_witness :
    (fun _ : Nat => true) 10 = true ∧
    ((update_polymarket_after (fun _ => true) 10 initialSchedState).pending = true ∧
     (runScheduledTicks (fun _ => true) initialSchedState).joins = [10, 60] ∧
     (runScheduledTicks (fun _ => true) initialSchedState).pending = false) :=
  ⟨rfl, scheduler_preferred_at_10s_settles_at_60s (fun _ => true) rfl⟩

/-- The spec's C2 fallback scenario: fill at `t = 1,000,000` ms, a single
matching after-observation at `1,005,000` ms (val `0.42`). -/
def fallbackObs : Obs :=
  { timestamp_ms := 1005000, game_slug := "game-1", outcome := "yes"
    bbo := (42 : Rat) / 100, best_bid := none, best_ask := none }

/-- C2: the code is wrong on its own terms.  In the fallback scenario
(only observation 5 seconds after the fill) `get_polymarket_bbo_data`
does return that observation via the fallback path with
`seconds_from_fill = 5.0`, but flags it `is_preferred = true`, because
`is_preferred = time_diff >= 10.0` compares the MILLISECOND difference
(5000) against the literal `10.0`, while the adjacent comment says
"True if >= 10s, False if < 10s (fallback)".  The claim (and the spec)
say `preferred=false`. -/
theorem after_fallback_is_flagged_preferred :
    (get_polymarket_bbo_data [fallbackObs] "game-1" "yes" 1000000).2 =
      some (mkAfterData fallbackObs 1000000) ∧
    (mkAfterData fallbackObs 1000000).seconds_from_fill = 5 ∧
    (mkAfterData fallbackObs 1000000).is_preferred = true := by
  refine ⟨rfl, ?_, by decide⟩
  show ((1005000 - 1000000 : Int) : Rat) / 1000 = 5
  norm_num

/-- C6: in the output of `deduplicate_fills`, no two entries can share a
composite key, and for every composite key `k` the entries of the output
carrying `k` are exactly the first fill of the input carrying `k` (the
first-seen one is retained). -/
theorem deduplicate_fills_first_seen_per_key (l : List Fill) :
    (deduplicate_fills l).Pairwise keyDistinct ∧
    ∀ k, (deduplicate_fills l).filter (fun f => decide (compositeKey f = some k)) =
      (l.find? (fun f => decide (compositeKey f = some k))).toList :=
  ⟨dedupAux_pairwise_keyDistinct [] l,
   fun k => dedupAux_filter_eq_find k [] l (List.not_mem_nil k)⟩

/-- C10: a fill for which no composite key can be formed is always
retained by `deduplicate_fills` — its multiplicity in the output equals
its multiplicity in the input, so two identical keyless fills both
appear. -/
theorem deduplicate_fills_keeps_keyless (l : List Fill) (f : Fill)
    (hf : compositeKey f = none) :
    (deduplicate_fills l).count f = l.count f :=
  dedupAux_count_keyless f hf [] l

/-- A fill with neither a timestamp nor an internal id: no composite key. -/
def keylessFill : Fill :=
  { timestamp_ms := none, fill_tx_ts := none, ftd_id := none
    ftd_internal_id := none, top_id := none, top_internal_id := none
    fill_value_field := none, last_fill_value_amount := none, payload := 0 }

/-- Witness for C10: two identical keyless fills are both retained. -/
theorem deduplicate_fills_keeps_keyless_witness :
    compositeKey keylessFill = none ∧
    (deduplicate_fills [keylessFill, keylessFill]).count keylessFill =
      [keylessFill, keylessFill].count keylessFill :=
  ⟨rfl, deduplicate_fills_keeps_keyless [keylessFill, keylessFill] keylessFill rfl⟩

/-- C8: `cleanup_old_orders now` retains exactly the entries whose
retention-relevant age `now - t` is strictly below the 48-hour horizon
(so no retained entry is older than the horizon, and no entry strictly
within the horizon is evicted); the retention-relevant timestamp
prefers `received_at` and falls back to the raw event timestamp,
normalized from milliseconds to seconds when it exceeds `1e12`. -/
theorem cleanup_old_orders_characterization (now : Rat) (h : List Order) :
    (∀ o, o ∈ cleanup_old_orders now h ↔
      o ∈ h ∧ now - _get_order_time_for_retention o <
        MAX_ORDER_AGE_HOURS * 60 * 60) ∧
    (∀ o r, o.received_at = some r → _get_order_time_for_retention o = r) ∧
    (∀ o, o.received_at = none → _get_order_time_for_retention o =
      (if (10 : Rat) ^ (12 : Nat) < o.timestamp then o.timestamp / 1000
       else o.timestamp)) := by
  refine ⟨?_, ?_, ?_⟩
  · intro o
    unfold cleanup_old_orders
    rw [List.mem_filter, decide_eq_true_eq, sub_lt_comm]
  · intro o r hr
    unfold _get_order_time_for_retention
    rw [hr]
  · intro o hr
    unfold _get_order_time_for_retention
    rw [hr]

/-- A fresh order used as the C8 witness. -/
def freshOrder : Order :=
  { tx_hash := "h", log_index := 0, received_at := some 4, timestamp := 0
    polymarket_before := none, polymarket_after := none, sportbook := none }

/-- Witness for C8: an order received 1 second before `now = 5` is
retained by the cleanup. -/
theorem cleanup_old_orders_characterization_witness :
    freshOrder ∈ cleanup_old_orders 5 [freshOrder] :=
  ((cleanup_old_orders_characterization 5 [freshOrder]).1 freshOrder).mpr
    ⟨List.mem_singleton_self _, by norm_num [_get_order_time_for_retention, freshOrder,
      MAX_ORDER_AGE_HOURS]⟩

/-- An enriched history entry: its `polymarket_after` enrichment was
previously set to a non-null payload. -/
def enrichedOrder : Order :=
  { tx_hash := "abc", log_index := 1, received_at := some 0, timestamp := 0
    polymarket_before := some (some 7), polymarket_after := some (some 7)
    sportbook := some (some 7) }

/-- The same event received again from the stream: `handle_dome_message`
initializes every enrichment field to an explicit None before queueing. -/
def reReceivedOrder : Order :=
  { tx_hash := "abc", log_index := 1, received_at := some 1, timestamp := 0
    polymarket_before := some none, polymarket_after := some none
    sportbook := some none }

/-- C3 counterexample: upserting a re-received event whose enrichment
keys are explicitly None (exactly what `handle_dome_message` emits for
a duplicate stream event) regresses the previously-set non-null
`polymarket_after` of the cached entry back to None — `dict.update`
overwrites every key present in the incoming dict, null or not. -/
theorem store_upsert_regresses_enrichment :
    enrichedOrder.polymarket_after = some (some 7) ∧
    orderId enrichedOrder = orderId reReceivedOrder ∧
    (store_order_in_history 2 reReceivedOrder [enrichedOrder]).map
      (fun o => o.polymarket_after) = [some none] := by
  refine ⟨rfl, rfl, ?_⟩
  unfold store_order_in_history
  rw [cleanup_eq_self 2 [enrichedOrder] (by
    intro o ho
    rw [List.mem_singleton] at ho
    subst ho
    norm_num [_get_order_time_for_retention, enrichedOrder, MAX_ORDER_AGE_HOURS])]
  rfl

/-- C3 (amended): upserting an event already present in the cache merges
per-field with last-write-wins over the fields present on the incoming
record — including fields explicitly set to null, which do regress a
previously-set enrichment field.  Only a field absent from the incoming
record is preserved from the existing entry. -/
theorem store_upsert_update_semantics (now : Rat) (e o : Order)
    (hid : orderId e = orderId o)
    (hret : now - MAX_ORDER_AGE_HOURS * 60 * 60 < _get_order_time_for_retention e) :
    store_order_in_history now o [e] = [updateOrder e o] ∧
    (updateOrder e o).polymarket_after =
      o.polymarket_after.orElse (fun _ => e.polymarket_after) ∧
    (o.polymarket_after = none →
      (updateOrder e o).polymarket_after = e.polymarket_after) := by
  refine ⟨?_, rfl, ?_⟩
  · unfold store_order_in_history
    rw [cleanup_eq_self now [e] (by
      intro g hg
      rw [List.mem_singleton] at hg
      subst hg
      exact hret)]
    rw [upsertOrder, if_pos hid]
    rfl
  · intro h
    show (updateOrder e o).polymarket_after = e.polymarket_after
    unfold updateOrder
    rw [h]
    rfl

/-- Witness for C3's amended theorem: an incoming record that omits the
enrichment key preserves the existing non-null value. -/
def omittingOrder : Order :=
  { tx_hash := "abc", log_index := 1, received_at := some 1, timestamp := 0
    polymarket_before := none, polymarket_after := none, sportbook := none }

theorem store_upsert_update_semantics_witness :
    (orderId enrichedOrder = orderId omittingOrder ∧
      (0 : Rat) - MAX_ORDER_AGE_HOURS * 60 * 60 <
        _get_order_time_for_retention enrichedOrder) ∧
    (store_order_in_history 0 omittingOrder [enrichedOrder] =
      [updateOrder enrichedOrder omittingOrder] ∧
    (updateOrder enrichedOrder omittingOrder).polymarket_after =
      omittingOrder.polymarket_after.orElse
        (fun _ => enrichedOrder.polymarket_after) ∧
    (omittingOrder.polymarket_after = none →
      (updateOrder enrichedOrder omittingOrder).polymarket_after =
        enrichedOrder.polymarket_after)) :=
  ⟨⟨rfl, by norm_num [_get_order_time_for_retention, enrichedOrder, MAX_ORDER_AGE_HOURS]⟩,
   store_upsert_update_semantics 0 enrichedOrder omittingOrder rfl
     (by norm_num [_get_order_time_for_retention, enrichedOrder, MAX_ORDER_AGE_HOURS])⟩

/-- C9: after every `store_order_in_history` write the history holds at
most `MAX_ORDER_HISTORY = 4000` entries; and inserting 4001 orders with
pairwise-distinct ids, strictly increasing retention times and all
within the retention horizon leaves exactly the 4000 newest, newest
first — the oldest (first-inserted) order is dropped. -/
theorem store_order_history_cap (now : Rat) (es : List Order)
    (hdist : es.Pairwise (fun a b => orderId a ≠ orderId b))
    (hmono : es.Pairwise (fun a b =>
      _get_order_time_for_retention a < _get_order_time_for_retention b))
    (hret : ∀ o ∈ es,
      now - MAX_ORDER_AGE_HOURS * 60 * 60 < _get_order_time_for_retention o)
    (hlen : es.length = 4001) :
    (∀ (now2 : Rat) (o : Order) (h : List Order),
      (store_order_in_history now2 o h).length ≤ MAX_ORDER_HISTORY) ∧
    es.foldl (fun h o => store_order_in_history now o h) [] = (es.drop 1).reverse ∧
    (es.foldl (fun h o => store_order_in_history now o h) []).length =
      MAX_ORDER_HISTORY := by
  have hfold := store_fold now es hdist hmono hret
  have hrev : es.reverse.take MAX_ORDER_HISTORY = (es.drop 1).reverse := by
    have h1 : (es.reverse.take MAX_ORDER_HISTORY).reverse =
        es.reverse.reverse.drop (es.reverse.length - MAX_ORDER_HISTORY) :=
      List.reverse_take
    rw [List.reverse_reverse, List.length_reverse, hlen] at h1
    have h2 : es.reverse.length - MAX_ORDER_HISTORY = 1 := by
      rw [List.length_reverse, hlen]
      rfl
    calc es.reverse.take MAX_ORDER_HISTORY
        = (es.reverse.take MAX_ORDER_HISTORY).reverse.reverse := (List.reverse_reverse _).symm
      _ = (es.drop 1).reverse := by
          rw [h1, show 4001 - MAX_ORDER_HISTORY = 1 from rfl]
  refine ⟨fun now2 o h => capHistory_length_le _, ?_, ?_⟩
  · rw [hfold, hrev]
  · rw [hfold, hrev, List.length_reverse, List.length_drop, hlen]
    rfl

/-- The i-th order of the C9 scenario: distinct ids, received time `i`. -/
def mkScenarioOrder (i : Nat) : Order :=
  { tx_hash := String.mk (List.replicate i 'a'), log_index := 0
    received_at := some (i : Rat), timestamp := 0
    polymarket_before := none, polymarket_after := none, sportbook := none }

/-- 4001 scenario orders in increasing received-time order. -/
def scenarioOrders : List Order :=
  (List.range 4001).map mkScenarioOrder

theorem mkScenarioOrder_id_inj (i j : Nat)
    (h : orderId (mkScenarioOrder i) = orderId (mkScenarioOrder j)) : i = j := by
  have h2 := congrArg String.length h
  simp only [orderId, mkScenarioOrder, String.length_append] at h2
  have hl : ∀ n : Nat, (String.mk (List.replicate n 'a')).length = n := fun n => by
    show (List.replicate n 'a').length = n
    exact List.length_replicate n 'a'
  rw [hl i, hl j] at h2
  omega

theorem mkScenarioOrder_ret (i : Nat) :
    _get_order_time_for_retention (mkScenarioOrder i) = (i : Rat) := rfl

theorem scenarioOrders_pairwise_id :
    scenarioOrders.Pairwise (fun a b => orderId a ≠ orderId b) :=
  (List.pairwise_map.mpr ((List.pairwise_lt_range 4001).imp
    (fun hij heq => absurd (mkScenarioOrder_id_inj _ _ heq) (Nat.ne_of_lt hij))))

theorem scenarioOrders_pairwise_ret :
    scenarioOrders.Pairwise (fun a b =>
      _get_order_time_for_retention a < _get_order_time_for_retention b) :=
  (List.pairwise_map.mpr ((List.pairwise_lt_range 4001).imp
    (fun hij => by
      rw [mkScenarioOrder_ret, mkScenarioOrder_ret]
      exact_mod_cast hij)))

theorem scenarioOrders_fresh :
    ∀ o ∈ scenarioOrders,
      (0 : Rat) - MAX_ORDER_AGE_HOURS * 60 * 60 < _get_order_time_for_retention o := by
  intro o ho
  obtain ⟨i, _, rfl⟩ := List.mem_map.mp ho
  rw [mkScenarioOrder_ret]
  calc (0 : Rat) - MAX_ORDER_AGE_HOURS * 60 * 60 < 0 := by
        norm_num [MAX_ORDER_AGE_HOURS]
    _ ≤ (i : Rat) := Nat.cast_nonneg i

theorem scenarioOrders_length : scenarioOrders.length = 4001 := by
  simp [scenarioOrders]

/-- Witness for C9: folding the 4001 scenario orders through the store
leaves exactly `MAX_ORDER_HISTORY` entries. -/
theorem store_order_history_cap_witness :
    (scenarioOrders.foldl (fun h o => store_order_in_history 0 o h) []).length =
      MAX_ORDER_HISTORY :=
  (store_order_history_cap 0 scenarioOrders scenarioOrders_pairwise_id
    scenarioOrders_pairwise_ret scenarioOrders_fresh scenarioOrders_length).2.2

/-- C7 counterexample: the trade-feed merge is not idempotent as soon as
the incoming set contains a keyless fill — re-merging the same incoming
set duplicates it, because `deduplicate_fills` always retains keyless
fills. -/
theorem merge_twice_duplicates_keyless :
    get_tradefeed_merge (get_tradefeed_merge [] [keylessFill]) [keylessFill] ≠
      get_tradefeed_merge [] [keylessFill] := by decide

/-- C7 (amended): the trade-feed cache merge is idempotent provided
every incoming fill has a formable composite key (timestamp and
internal id both present); keyless incoming fills are instead
duplicated by a re-merge. -/
theorem merge_idempotent_on_keyed (cached incoming : List Fill)
    (hk : ∀ f ∈ incoming, (compositeKey f).isSome) :
    get_tradefeed_merge (get_tradefeed_merge cached incoming) incoming =
      get_tradefeed_merge cached incoming := by
  unfold get_tradefeed_merge
  set M := List.insertionSort fillDescLE (deduplicate_fills (cached ++ incoming)) with hMdef
  have hsorted : M.Sorted fillDescLE :=
    List.sorted_insertionSort fillDescLE (deduplicate_fills (cached ++ incoming))
  have hperm : List.Perm M (deduplicate_fills (cached ++ incoming)) :=
    List.perm_insertionSort fillDescLE (deduplicate_fills (cached ++ incoming))
  have hpwM : M.Pairwise keyDistinct :=
    (hperm.pairwise_iff (fun h => keyDistinct_symm h)).mpr
      (dedupAux_pairwise_keyDistinct [] (cached ++ incoming))
  have hdrop : ∀ f ∈ incoming,
      ∃ k, compositeKey f = some k ∧ k ∈ seenKeys [] M := by
    intro f hf
    obtain ⟨k, hkey⟩ := Option.isSome_iff_exists.mp (hk f hf)
    refine ⟨k, hkey, (mem_seenKeys k [] M).mpr (Or.inr ?_)⟩
    have hfind : ((cached ++ incoming).find?
        (fun g => decide (compositeKey g = some k))).isSome :=
      List.find?_isSome.mpr ⟨f, List.mem_append_right _ hf, by simp [hkey]⟩
    obtain ⟨g, hg⟩ := Option.isSome_iff_exists.mp hfind
    have hfilter := dedupAux_filter_eq_find k [] (cached ++ incoming) (List.not_mem_nil k)
    rw [hg] at hfilter
    have hgmem : g ∈ (deduplicate_fills (cached ++ incoming)).filter
        (fun x => decide (compositeKey x = some k)) := by
      show g ∈ (dedupAux [] (cached ++ incoming)).filter
        (fun x => decide (compositeKey x = some k))
      rw [hfilter]
      exact List.mem_singleton_self g
    rw [List.mem_filter] at hgmem
    exact ⟨g, hperm.mem_iff.mpr hgmem.1, of_decide_eq_true hgmem.2⟩
  have hM : deduplicate_fills (M ++ incoming) = M := by
    show dedupAux [] (M ++ incoming) = M
    rw [dedupAux_append]
    rw [dedupAux_eq_self [] M
      (fun f _ k _ hkmem => absurd hkmem (List.not_mem_nil k)) hpwM]
    rw [dedupAux_eq_nil_of_seen (seenKeys [] M) incoming hdrop, List.append_nil]
  rw [hM, hsorted.insertionSort_eq]

/-- A fill with a formable composite key (timestamp and id present). -/
def keyedFill : Fill :=
  { timestamp_ms := some 1, fill_tx_ts := none, ftd_id := some "i"
    ftd_internal_id := none, top_id := none, top_internal_id := none
    fill_value_field := none, last_fill_value_amount := none, payload := 0 }

/-- Witness for C7's amended theorem on a keyed singleton. -/
theorem merge_idempotent_on_keyed_witness :
    (∀ f ∈ [keyedFill], (compositeKey f).isSome) ∧
    get_tradefeed_merge (get_tradefeed_merge [] [keyedFill]) [keyedFill] =
      get_tradefeed_merge [] [keyedFill] :=
  ⟨by decide, merge_idempotent_on_keyed [] [keyedFill] (by decide)⟩

/-! ### Shape lemmas for the in-memory join -/

/-- `get_polymarket_bbo_data` with its falsy/empty guards discharged. -/
theorem get_polymarket_bbo_data_eq (data : List Obs) (gs oc : String) (t : Int)
    (hgs : gs ≠ "") (hoc : oc ≠ "") (ht : t ≠ 0) (hdata : data ≠ []) :
    get_polymarket_bbo_data data gs oc t =
      ((pyMaxBy (fun r => r.timestamp_ms)
          (collectRecords (pyNorm gs) (pyNorm oc) (t - 300000) t (t + 300000)
            (t + 10000) data).1).map (fun r => mkBeforeData r t),
       (pyMinBy (fun r => r.timestamp_ms)
          (if (collectRecords (pyNorm gs) (pyNorm oc) (t - 300000) t (t + 300000)
              (t + 10000) data).2.2 ≠ [] then
            (collectRecords (pyNorm gs) (pyNorm oc) (t - 300000) t (t + 300000)
              (t + 10000) data).2.2
          else
            (collectRecords (pyNorm gs) (pyNorm oc) (t - 300000) t (t + 300000)
              (t + 10000) data).2.1)).map (fun r => mkAfterData r t)) := by
  unfold get_polymarket_bbo_data
  rw [if_neg (by push_neg; exact ⟨hgs, hoc, ht⟩), if_neg hdata]
  rfl

theorem collect_pref_subset_all (slugN outN : String)
    (startT fillT endT preferT : Int) :
    ∀ l : List Obs,
      (collectRecords slugN outN startT fillT endT preferT l).2.2 ⊆
        (collectRecords slugN outN startT fillT endT preferT l).2.1 := by
  intro l
  induction l with
  | nil => exact fun _ h => h
  | cons r rest ih =>
    by_cases h0 : r.timestamp_ms = 0
    · simpa only [collectRecords, if_pos h0] using ih
    · by_cases hend : endT < r.timestamp_ms
      · simp only [collectRecords, if_neg h0, if_pos hend]
        exact fun _ h => h
      · by_cases hm : obsMatches slugN outN r
        · by_cases hbr : startT ≤ r.timestamp_ms ∧ r.timestamp_ms ≤ fillT
          · simpa only [collectRecords, if_neg h0, if_neg hend, if_pos hm, if_pos hbr]
              using ih
          · by_cases haf : fillT < r.timestamp_ms
            · by_cases hpr : preferT ≤ r.timestamp_ms
              · simp only [collectRecords, if_neg h0, if_neg hend, if_pos hm,
                  if_neg hbr, if_pos haf, if_pos hpr]
                exact List.cons_subset_cons r ih
              · simp only [collectRecords, if_neg h0, if_neg hend, if_pos hm,
                  if_neg hbr, if_pos haf, if_neg hpr]
                exact fun x hx => List.mem_cons_of_mem _ (ih hx)
            · simpa only [collectRecords, if_neg h0, if_neg hend, if_pos hm,
                if_neg hbr, if_neg haf] using ih
        · simpa only [collectRecords, if_neg h0, if_neg hend, if_neg hm] using ih

theorem mem_collect_after_all (slugN outN : String)
    (startT fillT endT preferT : Int) :
    ∀ (l : List Obs) (m : Obs),
      m ∈ (collectRecords slugN outN startT fillT endT preferT l).2.1 →
      fillT < m.timestamp_ms := by
  intro l
  induction l with
  | nil => intro m hm; exact absurd hm (List.not_mem_nil m)
  | cons r rest ih =>
    intro m hm
    by_cases h0 : r.timestamp_ms = 0
    · rw [collectRecords, if_pos h0] at hm
      exact ih m hm
    · by_cases hend : endT < r.timestamp_ms
      · simp only [collectRecords, if_neg h0, if_pos hend] at hm
        exact absurd hm (List.not_mem_nil m)
      · by_cases hmt : obsMatches slugN outN r
        · by_cases hbr : startT ≤ r.timestamp_ms ∧ r.timestamp_ms ≤ fillT
          · simp only [collectRecords, if_neg h0, if_neg hend, if_pos hmt,
              if_pos hbr] at hm
            exact ih m hm
          · by_cases haf : fillT < r.timestamp_ms
            · by_cases hpr : preferT ≤ r.timestamp_ms
              · simp only [collectRecords, if_neg h0, if_neg hend, if_pos hmt,
                  if_neg hbr, if_pos haf, if_pos hpr] at hm
                rcases List.mem_cons.mp hm with rfl | hm
                · exact haf
                · exact ih m hm
              · simp only [collectRecords, if_neg h0, if_neg hend, if_pos hmt,
                  if_neg hbr, if_pos haf, if_neg hpr] at hm
                rcases List.mem_cons.mp hm with rfl | hm
                · exact haf
                · exact ih m hm
            · simp only [collectRecords, if_neg h0, if_neg hend, if_pos hmt,
                if_neg hbr, if_neg haf] at hm
              exact ih m hm
        · simp only [collectRecords, if_neg h0, if_neg hend, if_neg hmt] at hm
          exact ih m hm

/-- C5: the preferred-after lookup of `get_polymarket_bbo_data` never
returns an observation at or before the fill timestamp; and whenever
some matching observation lies at least `settle_delay = 10000` ms after
the fill and within the `300000` ms window, the returned observation is
the minimal-timestamp such observation and is flagged preferred. -/
theorem preferred_after_lookup (data : List Obs) (gs oc : String) (t : Int)
    (hgs : gs ≠ "") (hoc : oc ≠ "") (ht : 0 < t)
    (hmatch : ∀ o ∈ data, obsMatches (pyNorm gs) (pyNorm oc) o)
    (hsort : data.Sorted (fun a b => a.timestamp_ms ≤ b.timestamp_ms)) :
    (∀ r, (get_polymarket_bbo_data data gs oc t).2 = some r →
      t < r.polymarket_timestamp) ∧
    ((∃ o ∈ data, t + 10000 ≤ o.timestamp_ms ∧ o.timestamp_ms ≤ t + 300000) →
      ∃ m ∈ data, (t + 10000 ≤ m.timestamp_ms ∧ m.timestamp_ms ≤ t + 300000) ∧
        (∀ o2 ∈ data, t + 10000 ≤ o2.timestamp_ms → o2.timestamp_ms ≤ t + 300000 →
          m.timestamp_ms ≤ o2.timestamp_ms) ∧
        (get_polymarket_bbo_data data gs oc t).2 = some (mkAfterData m t) ∧
        (mkAfterData m t).is_preferred = true) := by
  by_cases hdata : data = []
  · subst hdata
    constructor
    · intro r hr
      have hnone : (get_polymarket_bbo_data [] gs oc t).2 = none := by
        unfold get_polymarket_bbo_data
        by_cases hg : gs = "" ∨ oc = "" ∨ t = 0
        · rw [if_pos hg]
        · rw [if_neg hg, if_pos rfl]
      rw [hnone] at hr
      exact absurd hr (fun h => Option.noConfusion h)
    · rintro ⟨o, ho, _⟩
      exact absurd ho (List.not_mem_nil o)
  · rw [get_polymarket_bbo_data_eq data gs oc t hgs hoc (ne_of_gt ht) hdata]
    constructor
    · intro r hr
      dsimp only at hr
      rw [Option.map_eq_some'] at hr
      obtain ⟨m, hmin, hmk⟩ := hr
      subst hmk
      have hmem := (pyMinBy_spec (fun r : Obs => r.timestamp_ms) hmin).1
      have hlt : t < m.timestamp_ms := by
        by_cases hp : (collectRecords (pyNorm gs) (pyNorm oc) (t - 300000) t
            (t + 300000) (t + 10000) data).2.2 ≠ []
        · rw [if_pos hp] at hmem
          exact mem_collect_after_all (pyNorm gs) (pyNorm oc) (t - 300000) t
            (t + 300000) (t + 10000) data m
            (collect_pref_subset_all (pyNorm gs) (pyNorm oc) (t - 300000) t
              (t + 300000) (t + 10000) data hmem)
        · rw [if_neg hp] at hmem
          exact mem_collect_after_all (pyNorm gs) (pyNorm oc) (t - 300000) t
            (t + 300000) (t + 10000) data m hmem
      exact hlt
    · rintro ⟨o, ho, ho1, ho2⟩
      have hfe : t ≤ t + 300000 := by linarith
      rw [collectRecords_eq_filters (pyNorm gs) (pyNorm oc) (t - 300000) t
        (t + 300000) (t + 10000) hfe data hsort]
      dsimp only
      have hcondP : ∀ o2 ∈ data, t + 10000 ≤ o2.timestamp_ms →
          o2.timestamp_ms ≤ t + 300000 →
          condAfterPref (pyNorm gs) (pyNorm oc) t (t + 10000) (t + 300000) o2 :=
        fun o2 ho2m h1 h2 =>
          ⟨by intro hz; rw [hz] at h1; omega, hmatch o2 ho2m, by omega, h1, h2⟩
      have hoP := hcondP o ho ho1 ho2
      have hne : data.filter (fun r =>
          decide (condAfterPref (pyNorm gs) (pyNorm oc) t (t + 10000) (t + 300000) r)) ≠ [] :=
        List.ne_nil_of_mem (List.mem_filter.mpr ⟨ho, decide_eq_true hoP⟩)
      rw [if_pos hne]
      obtain ⟨m, hm⟩ := pyMinBy_isSome (fun r => r.timestamp_ms) hne
      obtain ⟨hmemF, hminF⟩ := pyMinBy_spec (fun r : Obs => r.timestamp_ms) hm
      rw [List.mem_filter] at hmemF
      have hmP : condAfterPref (pyNorm gs) (pyNorm oc) t (t + 10000) (t + 300000) m :=
        of_decide_eq_true hmemF.2
      refine ⟨m, hmemF.1, ⟨hmP.2.2.2.1, hmP.2.2.2.2⟩, ?_, ?_, ?_⟩
      · intro o2 ho2m h1 h2
        exact hminF o2 (List.mem_filter.mpr
          ⟨ho2m, decide_eq_true (hcondP o2 ho2m h1 h2)⟩)
      · rw [hm]
        rfl
      · show decide ((10 : Int) ≤ m.timestamp_ms - t) = true
        exact decide_eq_true (by have := hmP.2.2.2.1; omega)

/-- The spec scenario observations: `995,000` (val 0.40) and
`1,011,000` (val 0.45) around the fill at `1,000,000`. -/
def specBeforeObs : Obs :=
  { timestamp_ms := 995000, game_slug := "game-1", outcome := "yes"
    bbo := (40 : Rat) / 100, best_bid := none, best_ask := none }

def specAfterObs : Obs :=
  { timestamp_ms := 1011000, game_slug := "game-1", outcome := "yes"
    bbo := (45 : Rat) / 100, best_bid := none, best_ask := none }

def specScenarioData : List Obs := [specBeforeObs, specAfterObs]

/-- Witness for C5 at the spec's scenario data. -/
theorem preferred_after_lookup_witness :
    ∃ m ∈ specScenarioData,
      ((1000000 : Int) + 10000 ≤ m.timestamp_ms ∧
        m.timestamp_ms ≤ 1000000 + 300000) ∧
      (∀ o2 ∈ specScenarioData, (1000000 : Int) + 10000 ≤ o2.timestamp_ms →
        o2.timestamp_ms ≤ 1000000 + 300000 →
        m.timestamp_ms ≤ o2.timestamp_ms) ∧
      (get_polymarket_bbo_data specScenarioData "game-1" "yes" 1000000).2 =
        some (mkAfterData m 1000000) ∧
      (mkAfterData m 1000000).is_preferred = true :=
  (preferred_after_lookup specScenarioData "game-1" "yes" 1000000
    (by decide) (by decide) (by decide) (by decide) (by decide)).2
    ⟨specAfterObs, List.mem_cons_of_mem _ (List.mem_singleton_self _), by decide, by decide⟩

/-- A matching observation exactly at the fill timestamp. -/
def boundaryObs : Obs :=
  { timestamp_ms := 1000000, game_slug := "game-1", outcome := "yes"
    bbo := 1, best_bid := none, best_ask := none }

/-- C4 counterexample: the claim is false for the SQL-backed before
lookup of main.py.  An observation exactly at the fill timestamp
satisfies `timestamp_ms ≤ t` and `t - timestamp_ms ≤ w` and is the
unique maximizer (the spec-worded `specNearestBefore` returns it), yet
`_get_polymarket_bbo_before_sync` returns null, because it keeps only
rows with `timestamp_ms < t` strictly. -/
theorem main_before_excludes_boundary :
    (boundaryObs.timestamp_ms ≤ 1000000 ∧
      (1000000 : Int) - boundaryObs.timestamp_ms ≤ 300000) ∧
    specNearestBefore 1000000 300000 [boundaryObs] = some boundaryObs ∧
    mainBeforeClosest "game-1" "yes" 1000000 [boundaryObs] = none :=
  ⟨by decide, by decide, by decide⟩

/-- C4 (amended): for the in-memory lookup of
`get_polymarket_bbo_data`, the nearest-before result on a
strictly-ascending snapshot index is exactly the claim's unique
maximizer of `timestamp_ms` subject to `timestamp_ms ≤ t` and
`t - timestamp_ms ≤ w` (null iff no observation qualifies); the
SQL-backed before lookup of main.py differs at the boundary: it only
ever returns observations with `timestamp_ms < t` strictly. -/
theorem nearest_before_lookup (data : List Obs) (gs oc : String) (t : Int)
    (hgs : gs ≠ "") (hoc : oc ≠ "") (ht : 0 < t)
    (hpos : ∀ o ∈ data, 0 < o.timestamp_ms)
    (hmatch : ∀ o ∈ data, obsMatches (pyNorm gs) (pyNorm oc) o)
    (hsort : data.Sorted (fun a b => a.timestamp_ms < b.timestamp_ms)) :
    ((get_polymarket_bbo_data data gs oc t).1 = none ↔
      ∀ o ∈ data, ¬ (t - 300000 ≤ o.timestamp_ms ∧ o.timestamp_ms ≤ t)) ∧
    ((∃ o ∈ data, t - 300000 ≤ o.timestamp_ms ∧ o.timestamp_ms ≤ t) →
      ∃ m ∈ data, (t - 300000 ≤ m.timestamp_ms ∧ m.timestamp_ms ≤ t) ∧
        (∀ o2 ∈ data, t - 300000 ≤ o2.timestamp_ms → o2.timestamp_ms ≤ t →
          o2.timestamp_ms ≤ m.timestamp_ms) ∧
        (∀ o2 ∈ data, (t - 300000 ≤ o2.timestamp_ms ∧ o2.timestamp_ms ≤ t) →
          o2 ≠ m → o2.timestamp_ms < m.timestamp_ms) ∧
        (get_polymarket_bbo_data data gs oc t).1 = some (mkBeforeData m t)) ∧
    (∀ (slug2 lbl2 : String) (t2 : Int) (store : List Obs) (m : Obs),
      mainBeforeClosest slug2 lbl2 t2 store = some m → m.timestamp_ms < t2) := by
  have hmain : ∀ (slug2 lbl2 : String) (t2 : Int) (store : List Obs) (m : Obs),
      mainBeforeClosest slug2 lbl2 t2 store = some m → m.timestamp_ms < t2 := by
    intro slug2 lbl2 t2 store m h
    unfold mainBeforeClosest at h
    have hmem := (pyMaxBy_spec (fun r : Obs => r.timestamp_ms) h).1
    rw [List.mem_filter] at hmem
    exact of_decide_eq_true hmem.2
  have hcondB : ∀ o2 ∈ data,
      condBefore (pyNorm gs) (pyNorm oc) (t - 300000) t o2 ↔
        (t - 300000 ≤ o2.timestamp_ms ∧ o2.timestamp_ms ≤ t) := by
    intro o2 ho2
    constructor
    · exact fun h => ⟨h.2.2.1, h.2.2.2⟩
    · exact fun h => ⟨ne_of_gt (hpos o2 ho2), hmatch o2 ho2, h.1, h.2⟩
  by_cases hdata : data = []
  · subst hdata
    refine ⟨?_, ?_, hmain⟩
    · have hnone : (get_polymarket_bbo_data [] gs oc t).1 = none := by
        unfold get_polymarket_bbo_data
        by_cases hg : gs = "" ∨ oc = "" ∨ t = 0
        · rw [if_pos hg]
        · rw [if_neg hg, if_pos rfl]
      rw [hnone]
      simp
    · rintro ⟨o, ho, _⟩
      exact absurd ho (List.not_mem_nil o)
  · have hsortle : data.Sorted (fun a b => a.timestamp_ms ≤ b.timestamp_ms) :=
      hsort.imp (fun h => le_of_lt h)
    have hfe : t ≤ t + 300000 := by omega
    rw [get_polymarket_bbo_data_eq data gs oc t hgs hoc (ne_of_gt ht) hdata]
    dsimp only
    rw [collectRecords_eq_filters (pyNorm gs) (pyNorm oc) (t - 300000) t
      (t + 300000) (t + 10000) hfe data hsortle]
    dsimp only
    refine ⟨?_, ?_, hmain⟩
    · rw [Option.map_eq_none', pyMaxBy_eq_none, List.filter_eq_nil_iff]
      constructor
      · intro h o ho hw
        exact h o ho (decide_eq_true ((hcondB o ho).mpr hw))
      · intro h o ho hd
        exact h o ho ((hcondB o ho).mp (of_decide_eq_true hd))
    · rintro ⟨o, ho, hw1, hw2⟩
      have hne : data.filter (fun r =>
          decide (condBefore (pyNorm gs) (pyNorm oc) (t - 300000) t r)) ≠ [] :=
        List.ne_nil_of_mem (List.mem_filter.mpr
          ⟨ho, decide_eq_true ((hcondB o ho).mpr ⟨hw1, hw2⟩)⟩)
      obtain ⟨m, hm⟩ := pyMaxBy_isSome (fun r : Obs => r.timestamp_ms) hne
      obtain ⟨hmemF, hmaxF⟩ := pyMaxBy_spec (fun r : Obs => r.timestamp_ms) hm
      rw [List.mem_filter] at hmemF
      have hmB := (hcondB m hmemF.1).mp (of_decide_eq_true hmemF.2)
      have hpw : data.Pairwise (fun a b => a.timestamp_ms ≠ b.timestamp_ms) :=
        hsort.imp (fun h => ne_of_lt h)
      refine ⟨m, hmemF.1, hmB, ?_, ?_, ?_⟩
      · intro o2 ho2m h1 h2
        exact hmaxF o2 (List.mem_filter.mpr
          ⟨ho2m, decide_eq_true ((hcondB o2 ho2m).mpr ⟨h1, h2⟩)⟩)
      · intro o2 ho2m hw hne2
        have hle := hmaxF o2 (List.mem_filter.mpr
          ⟨ho2m, decide_eq_true ((hcondB o2 ho2m).mpr hw)⟩)
        have hsymm : Symmetric (fun a b : Obs => a.timestamp_ms ≠ b.timestamp_ms) :=
          fun _ _ h => Ne.symm h
        have hnee : o2.timestamp_ms ≠ m.timestamp_ms :=
          hpw.forall hsymm ho2m hmemF.1 hne2
        exact lt_of_le_of_ne hle hnee
      · rw [hm]
        rfl

/-- Witness for C4's amended theorem at the spec scenario data. -/
theorem nearest_before_lookup_witness :
    ∃ m ∈ specScenarioData,
      ((1000000 : Int) - 300000 ≤ m.timestamp_ms ∧ m.timestamp_ms ≤ 1000000) ∧
      (∀ o2 ∈ specScenarioData, (1000000 : Int) - 300000 ≤ o2.timestamp_ms →
        o2.timestamp_ms ≤ 1000000 → o2.timestamp_ms ≤ m.timestamp_ms) ∧
      (∀ o2 ∈ specScenarioData,
        ((1000000 : Int) - 300000 ≤ o2.timestamp_ms ∧ o2.timestamp_ms ≤ 1000000) →
        o2 ≠ m → o2.timestamp_ms < m.timestamp_ms) ∧
      (get_polymarket_bbo_data specScenarioData "game-1" "yes" 1000000).1 =
        some (mkBeforeData m 1000000) :=
  (nearest_before_lookup specScenarioData "game-1" "yes" 1000000
    (by decide) (by decide) (by decide) (by decide) (by decide) (by decide)).2.1
    ⟨specBeforeObs, List.mem_cons_self _ _, by decide, by decide⟩

end Counterparties
